import Mathlib

/-!
Verification development for the BabelDoc-GUI translation queue core
(`electron/main/translation.ts`) and the history store
(`electron/main/store.ts`).

The TypeScript source is shallowly embedded: JavaScript strings become
`String`/`List Char`, the job record and its mutations become a `QJob`
structure with pure update functions, the event-emitter calls become an
explicit list of emitted `Ev` values, and the single-threaded dispatch
loop (`enqueue` / `processNext` / `runJob` completion) becomes a
deterministic step function over an explicit supervisor state `MState`
driven by an externally chosen event trace.  JavaScript numbers appearing
here are nonnegative decimals; they are modelled exactly as
numerator/denominator pairs of naturals (`parseFloat` on a `[\d.]+`
capture never produces a negative or non-decimal value).
-/

namespace BabelDocGui

/-- Whitespace as used by `String.prototype.trim` and the regex class `\s`
(ASCII part; the log lines at issue contain only ASCII whitespace). -/
def isWs (c : Char) : Bool :=
  c = ' ' || c = '\t' || c = '\n' || c = '\r' || c = '\x0b' || c = '\x0c'

/-- `String.prototype.trim`: strip leading and trailing whitespace. -/
def jsTrim (s : String) : String :=
  ⟨((s.data.dropWhile isWs).reverse.dropWhile isWs).reverse⟩

/-- One character of the regex class `[\d.]`. -/
def isDigitDot (c : Char) : Bool := c.isDigit || c = '.'

/-- The literal part of the regex `/'overall_progress':\s*([\d.]+)/`
from `TranslationManager.tryParseDebugProgress`. -/
def litOverall : List Char := "'overall_progress':".data

/-- Try to match `/'overall_progress':\s*([\d.]+)/` anchored at the head of
`s`; on success return the `[\d.]+` capture.  Maximal munch for `\s*` is
exact here because no `[\d.]` character is whitespace, so the regex
engine's backtracking can never produce a different match. -/
def tryCapture (s : List Char) : Option (List Char) :=
  if litOverall.isPrefixOf s then
    let cap := ((s.drop litOverall.length).dropWhile isWs).takeWhile isDigitDot
    if cap.isEmpty then none else some cap
  else none

/-- Leftmost match of the `overall_progress` regex over a whole line
(`logLine.match(...)`). -/
def scanOverall : List Char → Option (List Char)
  | [] => none
  | c :: t =>
    match tryCapture (c :: t) with
    | some cap => some cap
    | none => scanOverall t

/-- Value of a list of decimal digit characters. -/
def digitsVal (ds : List Char) : Nat :=
  ds.foldl (fun n c => 10 * n + (c.toNat - 48)) 0

/-- JavaScript `parseFloat` restricted to strings drawn from `[\d.]+`:
the longest prefix of the form `digits* ['.' digits*]` containing at least
one digit, returned exactly as a pair (numerator, denominator) with
denominator `10 ^ #fractionDigits`; `none` models a `NaN` result. -/
def parseJsFloat (cap : List Char) : Option (Nat × Nat) :=
  let ip := cap.takeWhile Char.isDigit
  match cap.drop ip.length with
  | '.' :: r2 =>
    let fp := r2.takeWhile Char.isDigit
    if ip.isEmpty && fp.isEmpty then none
    else some (digitsVal ip * 10 ^ fp.length + digitsVal fp, 10 ^ fp.length)
  | _ => if ip.isEmpty then none else some (digitsVal ip, 1)

/-- JavaScript `Math.round` on the nonnegative rational `n / d`
(round half up): `⌊n/d + 1/2⌋ = (2n + d) / (2d)` in natural division. -/
def jsRound (n d : Nat) : Nat := (2 * n + d) / (2 * d)

/-- `TranslationManager.tryParseDebugProgress`: extract the
`'overall_progress'` field, round it, and apply it as the new progress
exactly when it is strictly greater than the current progress and at most
100; otherwise (including a `NaN` parse, whose comparisons are all false)
the progress is returned unchanged.  The `'stage'` extraction in the
source only feeds diagnostic logging and has no observable effect. -/
def tryParseDebugProgress (progress : Nat) (line : String) : Nat :=
  match scanOverall line.data with
  | none => progress
  | some cap =>
    match parseJsFloat cap with
    | none => progress
    | some nd =>
      if progress < jsRound nd.1 nd.2 && jsRound nd.1 nd.2 ≤ 100 then jsRound nd.1 nd.2
      else progress

/-- Substring test on character lists (needle `n`, haystack argument). -/
def containsL (n : List Char) : List Char → Bool
  | [] => n.isEmpty
  | c :: t => n.isPrefixOf (c :: t) || containsL n t

/-- Case-insensitive substring test: the `/.../i` literal patterns of the
heuristic stage table (all of them are literal ASCII strings; the one
escaped `\.` denotes a literal dot). -/
def containsCI (hay pat : String) : Bool :=
  containsL (pat.data.map Char.toLower) (hay.data.map Char.toLower)

/-- The `progressStages` table of `TranslationManager.tryUpdateProgressFromLog`. -/
def progressStages : List (String × Nat) :=
  [("start to translate", 5),
   ("Loading ONNX model", 8),
   ("Parse PDF and Create Intermediate", 15),
   ("Parse Page Layout", 25),
   ("Automatic Term Extraction", 35),
   ("Starting term extraction", 40),
   ("Found title paragraph", 50),
   ("Translate Paragraphs", 60),
   ("Translation completed. Total:", 85),
   ("Typesetting", 90),
   ("Save PDF", 95),
   ("finish translate:", 98)]

/-- The `for … break` loop body of `tryUpdateProgressFromLog`: the first
row whose pattern matches the line ends the loop, and its milestone value
is applied only when strictly greater than the current progress. -/
def applyStages : List (String × Nat) → Nat → String → Nat
  | [], p, _ => p
  | s :: rest, p, line =>
    if containsCI line s.1 then (if p < s.2 then s.2 else p)
    else applyStages rest p line

/-- `TranslationManager.tryUpdateProgressFromLog`. -/
def tryUpdateProgressFromLog (progress : Nat) (line : String) : Nat :=
  applyStages progressStages progress line

/-- The progress evolution `appendLog` applies to one captured line:
`tryParseDebugProgress` first, then `tryUpdateProgressFromLog` on its
result (the source calls both, one after the other, with no
stop-at-first-applicable short-circuit). -/
def processLine (progress : Nat) (line : String) : Nat :=
  tryUpdateProgressFromLog (tryParseDebugProgress progress line) line

/-- `TranslationJobStatus` from `types.ts`. -/
inductive JobStatus
  | queued
  | running
  | llmPath
  | awaitingUser
  | success
  | failed
deriving DecidableEq, Repr

/-- `TranslationQueueItem`: the in-memory job record.  Jobs are identified
by `randomUUID()` in the source; freshness is the only property used, so
ids are modelled as the job's enqueue index.  The `createdAt`/`updatedAt`
ISO timestamps, `originalName`, `sourceType` and `downloadId` fields are
carried by the source record but never read by the queue core and are
omitted. -/
structure QJob where
  id : Nat
  filePath : String
  status : JobStatus
  progress : Nat
  logs : List String
  outputDir : Option String := none
  savePath : Option String := none
  error : Option String := none
deriving DecidableEq, Repr

/-- One notification to the Event Sink or the History Store:
`emit("status")`, `emit("progress")`, `emit("completed")` and
`updateHistoryRecord` (persistence), in emission order. -/
inductive Ev
  | status (id : Nat) (st : JobStatus) (progress : Option Nat)
  | prog (id : Nat) (message : String)
  | completed (id : Nat) (success : Bool) (outputDir : Option String) (error : Option String)
  | hist (id : Nat)
deriving DecidableEq, Repr

/-- The ring-buffer push of `appendLog`: `logs.push(trimmed)` followed by
`logs.splice(0, logs.length - 500)` when the length exceeds 500. -/
def ringPush (logs : List String) (t : String) : List String :=
  let l := logs ++ [t]
  if 500 < l.length then l.drop (l.length - 500) else l

/-- `TranslationManager.appendLog`: trim the message, drop it if empty,
push it into the bounded log, emit a progress notification, persist, then
run the two Progress Interpreter rules in order (each emitting a status
notification and persisting when it raises the progress). -/
def appendLog (j : QJob) (message : String) : QJob × List Ev :=
  let t := jsTrim message
  if t = "" then (j, [])
  else
    let p1 := tryParseDebugProgress j.progress t
    let evs1 := if p1 = j.progress then [] else [Ev.status j.id j.status (some p1), Ev.hist j.id]
    let p2 := tryUpdateProgressFromLog p1 t
    let evs2 := if p2 = p1 then [] else [Ev.status j.id j.status (some p2), Ev.hist j.id]
    ({ j with logs := ringPush j.logs t, progress := p2 },
     [Ev.prog j.id t, Ev.hist j.id] ++ evs1 ++ evs2)

/-- The stdout/stderr `data` handlers of `runJob`: each delivered chunk is
trimmed and handed to `appendLog` as a single message (there is no
line-splitting of chunks in the source). -/
def onData (j : QJob) (chunk : String) : QJob × List Ev :=
  appendLog j (jsTrim chunk)

/-- `appendLog` folded over a sequence of messages (the job's view of its
captured output during one run episode). -/
def appendAll (j : QJob) (msgs : List String) : QJob :=
  msgs.foldl (fun a m => (appendLog a m).1) j

/-- The string interpolation `${code}` for a Node `close` code, which is
`number | null`. -/
def exitCodeStr : Option Int → String
  | some n => toString n
  | none => "null"

/-- The error message `` `BabelDOC 退出码 ${code}` `` of the `close`
handler. -/
def exitMsg (code : Option Int) : String :=
  "BabelDOC 退出码 " ++ exitCodeStr code

/-- The `child.on("close")` handler of `runJob`: on code 0 the job moves
to `awaiting-user` with progress 100, its output directory recorded and
`error` deleted; otherwise it moves to `failed` with progress 100 and an
error message embedding the exit code, which is also appended to the
log. -/
def closeHandler (j : QJob) (outDir : String) (code : Option Int) : QJob × List Ev :=
  if code = some 0 then
    ({ j with status := .awaitingUser, progress := 100, outputDir := some outDir, error := none },
     [Ev.status j.id .awaitingUser (some 100), Ev.hist j.id, Ev.hist j.id,
      Ev.completed j.id true (some outDir) none])
  else
    let msg := exitMsg code
    let al := appendLog { j with status := .failed, progress := 100, error := some msg } msg
    (al.1,
     [Ev.status j.id .failed (some 100), Ev.hist j.id] ++ al.2 ++
      [Ev.hist j.id, Ev.completed j.id false none (some msg)])

/-- The `child.on("error")` handler of `runJob` (spawn/runtime failure
with message `emsg`). -/
def errorHandler (j : QJob) (emsg : String) : QJob × List Ev :=
  let al := appendLog { j with status := .failed, progress := 100, error := some emsg } emsg
  (al.1,
   [Ev.status j.id .failed (some 100), Ev.hist j.id] ++ al.2 ++
    [Ev.hist j.id, Ev.completed j.id false none (some emsg)])

/-- The field updates of `markJobSaved` on the job it found. -/
def saveFields (j : QJob) (savePath : String) : QJob :=
  { j with status := .success, progress := 100, savePath := some savePath, error := none }

/-- `TranslationManager.markJobSaved`: find the first job with the given
id; return `null` and leave the queue unchanged when there is none,
otherwise update that job in place and return it. -/
def markJobSaved : List QJob → Nat → String → Option QJob × List QJob
  | [], _, _ => (none, [])
  | j :: t, id, savePath =>
    if j.id = id then (some (saveFields j savePath), saveFields j savePath :: t)
    else
      let r := markJobSaved t id savePath
      (r.1, j :: r.2)

/-- The synchronous head of `runJob`: the dispatched job becomes
`running` with empty logs and progress 0. -/
def startJob (j : QJob) : QJob :=
  { j with status := .running, logs := [], progress := 0 }

/-- `processNext`'s `queue.find(job => job.status === "queued")` followed
by `runJob`'s synchronous start: locate the first queued job, mark it
running in place, and report its id. -/
def startFirstQueued : List QJob → Option (Nat × List QJob)
  | [] => none
  | j :: t =>
    if j.status = .queued then some (j.id, startJob j :: t)
    else
      match startFirstQueued t with
      | some (i, t') => some (i, j :: t')
      | none => none

/-- The supervisor state: the in-memory queue, the single `processing`
flag, and the id of the job whose `runJob` promise is currently in
flight (`none` when idle). -/
structure MState where
  queue : List QJob
  processing : Bool
  active : Option Nat
deriving Repr

/-- One invocation of `processNext` up to its suspension point: a no-op
when `processing` is set, otherwise the first queued job (if any) starts
running under the raised flag. -/
def dispatch (s : MState) : MState :=
  if s.processing then s
  else
    match startFirstQueued s.queue with
    | none => s
    | some (i, q') => { queue := q', processing := true, active := some i }

/-- The record built by `enqueue` (status `queued`, progress 0, empty
logs). -/
def newJob (id : Nat) (filePath : String) : QJob :=
  { id := id, filePath := filePath, status := .queued, progress := 0, logs := [] }

/-- The job's dedicated output directory
`join(app.getPath("userData"), "translations", job.id)`, modelled up to
the application-private prefix. -/
def outDirOf (id : Nat) : String := "translations/" ++ toString id

/-- The externally driven occurrences the event loop serves: an `enqueue`
call, the child process `close` event (with its exit code), the child
process `error` event, a rejection of `runJob` before the process was
spawned (environment resolution or history-skeleton derivation failing —
swallowed by `processNext`'s `.catch`), and a `markJobSaved` call. -/
inductive MEvent
  | enq (filePath : String)
  | close (code : Option Int)
  | perr (msg : String)
  | envFail
  | save (id : Nat) (savePath : String)
deriving DecidableEq, Repr

/-- The queue after the `close` handler ran against the job captured by
the in-flight `runJob` closure. -/
def closeQueue (s : MState) (code : Option Int) : List QJob :=
  s.queue.map fun j => if s.active = some j.id then (closeHandler j (outDirOf j.id) code).1 else j

/-- The queue after the `error` handler ran against the in-flight job. -/
def errQueue (s : MState) (msg : String) : List QJob :=
  s.queue.map fun j => if s.active = some j.id then (errorHandler j msg).1 else j

/-- The supervisor's reaction to one event.  `enqueue` appends and calls
`processNext`; each completion path of `runJob` is followed by
`processing = false` and a re-invocation of `processNext`
(`queueMicrotask` runs it before any further external event); a pre-spawn
rejection (`envFail`) is only logged, leaving the stuck job's fields
untouched; `markJobSaved` touches only the queue. -/
def step (s : MState) : MEvent → MState
  | .enq fp => dispatch { s with queue := s.queue ++ [newJob s.queue.length fp] }
  | .close code => dispatch { queue := closeQueue s code, processing := false, active := none }
  | .perr msg => dispatch { queue := errQueue s msg, processing := false, active := none }
  | .envFail => dispatch { queue := s.queue, processing := false, active := none }
  | .save id path => { s with queue := (markJobSaved s.queue id path).2 }

/-- The supervisor's initial state. -/
def initState : MState := { queue := [], processing := false, active := none }

/-- The supervisor state after serving a trace of events from startup. -/
def run (es : List MEvent) : MState := es.foldl step initState

/-- Number of jobs currently in status `running`. -/
def countRunning (q : List QJob) : Nat :=
  (q.filter fun j => j.status = .running).length

/-- `TranslationRecord` from `types.ts` (persisted history entry).  Only
the fields `appendHistory`/`updateHistoryRecord` manage structurally are
needed; the metadata fields are carried opaquely. -/
structure TranslationRecord where
  id : Nat
  title : String
  sourcePath : String
  translatedPath : Option String := none
  savePath : Option String := none
  status : JobStatus
  errorMessage : Option String := none
  progress : Option Nat := none
  logs : List String
deriving DecidableEq, Repr

/-- `store.ts` `appendHistory`: `[record, ...getHistory()].slice(0, 500)`
becomes the new stored list. -/
def appendHistory (history : List TranslationRecord) (record : TranslationRecord) :
    List TranslationRecord :=
  (record :: history).take 500

/-! ### Progress Interpreter lemmas -/

lemma tryParseDebugProgress_mono (p : Nat) (l : String) :
    p ≤ tryParseDebugProgress p l := by
  unfold tryParseDebugProgress
  split
  · exact Nat.le_refl p
  · split
    · exact Nat.le_refl p
    · split
      · next h =>
        simp only [Bool.and_eq_true, decide_eq_true_eq] at h
        exact Nat.le_of_lt h.1
      · exact Nat.le_refl p

lemma applyStages_mono (tbl : List (String × Nat)) (p : Nat) (l : String) :
    p ≤ applyStages tbl p l := by
  induction tbl with
  | nil => exact Nat.le_refl p
  | cons s rest ih =>
    simp only [applyStages]
    split
    · split
      · next h => exact Nat.le_of_lt h
      · exact Nat.le_refl p
    · exact ih

lemma tryUpdateProgressFromLog_mono (p : Nat) (l : String) :
    p ≤ tryUpdateProgressFromLog p l :=
  applyStages_mono progressStages p l

lemma processLine_mono (p : Nat) (l : String) : p ≤ processLine p l :=
  Nat.le_trans (tryParseDebugProgress_mono p l)
    (tryUpdateProgressFromLog_mono (tryParseDebugProgress p l) l)

lemma appendLog_fst (j : QJob) (m : String) :
    (appendLog j m).1 =
      if jsTrim m = "" then j
      else { j with logs := ringPush j.logs (jsTrim m),
                    progress := processLine j.progress (jsTrim m) } := by
  simp only [appendLog, processLine]
  split
  · rfl
  · rfl

lemma appendLog_progress (j : QJob) (m : String) :
    (appendLog j m).1.progress =
      if jsTrim m = "" then j.progress else processLine j.progress (jsTrim m) := by
  rw [appendLog_fst]
  split
  · rfl
  · rfl

lemma appendLog_logs (j : QJob) (m : String) :
    (appendLog j m).1.logs =
      if jsTrim m = "" then j.logs else ringPush j.logs (jsTrim m) := by
  rw [appendLog_fst]
  split
  · rfl
  · rfl

lemma appendLog_status (j : QJob) (m : String) :
    (appendLog j m).1.status = j.status := by
  rw [appendLog_fst]; split <;> rfl

lemma appendLog_error (j : QJob) (m : String) :
    (appendLog j m).1.error = j.error := by
  rw [appendLog_fst]; split <;> rfl

lemma appendLog_id (j : QJob) (m : String) :
    (appendLog j m).1.id = j.id := by
  rw [appendLog_fst]; split <;> rfl

lemma appendLog_mono (j : QJob) (m : String) :
    j.progress ≤ (appendLog j m).1.progress := by
  rw [appendLog_progress]
  split
  · exact Nat.le_refl _
  · exact processLine_mono _ _

lemma appendAll_mono (j : QJob) (msgs : List String) :
    j.progress ≤ (appendAll j msgs).progress := by
  induction msgs generalizing j with
  | nil => exact Nat.le_refl _
  | cons m ms ih =>
    exact Nat.le_trans (appendLog_mono j m) (ih (appendLog j m).1)

/-- Claim C2: for every job and every sequence of output lines processed
during one run episode, progress is monotonically non-decreasing — each of
the two Progress Interpreter rules returns a value no smaller than the
current progress (each updates only on a strictly greater candidate), and
hence so does `appendLog` and any fold of it over a line sequence. -/
theorem spec_C2 :
    (∀ p l, p ≤ tryParseDebugProgress p l)
    ∧ (∀ p l, p ≤ tryUpdateProgressFromLog p l)
    ∧ (∀ j m, j.progress ≤ (appendLog j m).1.progress)
    ∧ (∀ j msgs, j.progress ≤ (appendAll j msgs).progress) :=
  ⟨tryParseDebugProgress_mono, tryUpdateProgressFromLog_mono, appendLog_mono, appendAll_mono⟩

/-- Claim C3 counterexample: on the line
`'overall_progress': 50.0 Typesetting` with current progress 0, the
structured rule applies and yields 50, yet `appendLog` leaves the job at
progress 90: the heuristic milestone table was applied to the very same
line after the structured extraction had already produced an update, so
the interpreter does not stop at the first applicable rule. -/
theorem spec_C3_cex :
    tryParseDebugProgress 0 "'overall_progress': 50.0 Typesetting" = 50
    ∧ (appendLog (newJob 0 "f") "'overall_progress': 50.0 Typesetting").1.progress = 90
    ∧ (90 : Nat) ≠ 50 := by
  refine ⟨by decide, ?_, by decide⟩
  decide

/-- Claim C3 (amended): `appendLog` applies both Progress Interpreter
rules to every captured (nonempty after trimming) line, structured
extraction first and then the heuristic stage table on its result; there
is no stop-at-first-applicable-rule short-circuit, so the heuristic table
can raise the progress further on a line whose structured field already
produced an update. -/
theorem spec_C3 :
    ∀ j m, jsTrim m ≠ "" →
      (appendLog j m).1.progress =
        tryUpdateProgressFromLog (tryParseDebugProgress j.progress (jsTrim m)) (jsTrim m) := by
  intro j m h
  rw [appendLog_progress, if_neg h]
  rfl

/-- Witness for C3 at the counterexample line. -/
theorem spec_C3_w :
    jsTrim "'overall_progress': 50.0 Typesetting" ≠ ""
    ∧ (appendLog (newJob 0 "f") "'overall_progress': 50.0 Typesetting").1.progress =
        tryUpdateProgressFromLog
          (tryParseDebugProgress (newJob 0 "f").progress
            (jsTrim "'overall_progress': 50.0 Typesetting"))
          (jsTrim "'overall_progress': 50.0 Typesetting") :=
  ⟨by decide, spec_C3 (newJob 0 "f") "'overall_progress': 50.0 Typesetting" (by decide)⟩

/-- Claim C4 counterexample: on the line `'overall_progress': 100.4` the
structured field parses to 1004/10 = 100.4, which is outside [0,100]
(1004 > 100·10), yet with current progress 0 the rule applies it:
progress becomes 100 (the rounded value), not left unchanged as the claim
states for out-of-range values. -/
theorem spec_C4_cex :
    scanOverall "'overall_progress': 100.4".data = some ['1', '0', '0', '.', '4']
    ∧ parseJsFloat ['1', '0', '0', '.', '4'] = some (1004, 10)
    ∧ ¬(1004 ≤ 100 * 10)
    ∧ tryParseDebugProgress 0 "'overall_progress': 100.4" = 100
    ∧ (100 : Nat) ≠ 0 := by
  refine ⟨by decide, by decide, by decide, by decide, by decide⟩

/-- Claim C4 (amended): the acceptance test of the structured rule is on
the ROUNDED value, not the parsed value: when the `'overall_progress'`
field is present and parses to `n / d`, the update applies exactly when
`round(n/d)` is strictly greater than the current progress and at most
100 — and `round(n/d) ≤ 100` holds iff `n/d < 100.5` (`2n < 201·d`), so
parsed values in (100, 100.5) are applied (as 100) although they lie
outside [0,100]; when the field is absent or parses to NaN the progress
is unchanged. -/
theorem spec_C4 :
    ∀ p (l : String),
      (scanOverall l.data = none → tryParseDebugProgress p l = p)
      ∧ (∀ cap, scanOverall l.data = some cap → parseJsFloat cap = none →
          tryParseDebugProgress p l = p)
      ∧ (∀ cap n d, scanOverall l.data = some cap → parseJsFloat cap = some (n, d) →
          tryParseDebugProgress p l =
            if p < jsRound n d && jsRound n d ≤ 100 then jsRound n d else p)
      ∧ (∀ n d : Nat, 0 < d → (jsRound n d ≤ 100 ↔ 2 * n < 201 * d)) := by
  intro p l
  refine ⟨?_, ?_, ?_, ?_⟩
  · intro h; simp only [tryParseDebugProgress, h]
  · intro cap h1 h2; simp only [tryParseDebugProgress, h1, h2]
  · intro cap n d h1 h2; simp only [tryParseDebugProgress, h1, h2]
  · intro n d hd
    have h2d : 0 < 2 * d := by omega
    unfold jsRound
    constructor
    · intro h
      have hlt : (2 * n + d) / (2 * d) < 101 := by omega
      have := (Nat.div_lt_iff_lt_mul h2d).1 hlt
      omega
    · intro h
      have hlt : 2 * n + d < 101 * (2 * d) := by omega
      have := (Nat.div_lt_iff_lt_mul h2d).2 hlt
      omega

/-- Witness for C4 at the counterexample line. -/
theorem spec_C4_w :
    scanOverall "'overall_progress': 100.4".data = some ['1', '0', '0', '.', '4']
    ∧ parseJsFloat ['1', '0', '0', '.', '4'] = some (1004, 10)
    ∧ tryParseDebugProgress 0 "'overall_progress': 100.4" =
        (if 0 < jsRound 1004 10 && jsRound 1004 10 ≤ 100 then jsRound 1004 10 else 0)
    ∧ (0 : Nat) < 10
    ∧ (jsRound 1004 10 ≤ 100 ↔ 2 * 1004 < 201 * 10) :=
  ⟨by decide, by decide,
   (spec_C4 0 "'overall_progress': 100.4").2.2.1 ['1', '0', '0', '.', '4'] 1004 10
     (by decide) (by decide),
   by decide,
   (spec_C4 0 "'overall_progress': 100.4").2.2.2 1004 10 (by decide)⟩

/-! ### Log ring buffer -/

lemma ringPush_drop (L : List String) (t : String) :
    ringPush (L.drop (L.length - 500)) t = (L ++ [t]).drop ((L ++ [t]).length - 500) := by
  simp only [ringPush, List.length_append, List.length_drop, List.length_cons,
    List.length_nil]
  by_cases h : L.length ≤ 499
  · rw [if_neg (by omega)]
    have h0 : L.length - 500 = 0 := by omega
    have h1 : L.length + 1 - 500 = 0 := by omega
    rw [h0, h1, List.drop_zero, List.drop_zero]
  · rw [if_pos (by omega)]
    have h2 : L.length - (L.length - 500) + 1 - 500 = 1 := by omega
    rw [h2, List.drop_append_of_le_length (by rw [List.length_drop]; omega),
      List.drop_drop, List.drop_append_of_le_length (by omega)]
    have h3 : L.length - 500 + 1 = L.length + 1 - 500 := by omega
    rw [h3]

lemma appendAll_logs (msgs : List String) :
    ∀ (L : List String) (j : QJob), j.logs = L.drop (L.length - 500) →
      (appendAll j msgs).logs =
        (L ++ (msgs.map jsTrim).filter (fun t => t ≠ "")).drop
          ((L ++ (msgs.map jsTrim).filter (fun t => t ≠ "")).length - 500) := by
  induction msgs with
  | nil =>
    intro L j h
    simpa [appendAll] using h
  | cons m ms ih =>
    intro L j h
    have hstep : appendAll j (m :: ms) = appendAll (appendLog j m).1 ms := rfl
    rw [hstep]
    by_cases hm : jsTrim m = ""
    · have hlogs : (appendLog j m).1.logs = L.drop (L.length - 500) := by
        rw [appendLog_logs, if_pos hm]; exact h
      have key := ih L (appendLog j m).1 hlogs
      rw [key]
      simp [List.filter_cons, hm]
    · have hlogs : (appendLog j m).1.logs =
          (L ++ [jsTrim m]).drop ((L ++ [jsTrim m]).length - 500) := by
        rw [appendLog_logs, if_neg hm, h]
        exact ringPush_drop L (jsTrim m)
      have key := ih (L ++ [jsTrim m]) (appendLog j m).1 hlogs
      rw [key]
      simp [List.filter_cons, hm, List.append_assoc]

/-- Claim C7: starting from the empty log (as every run episode does), the
retained log after any sequence of appended messages is exactly the
sequence of nonempty trimmed messages restricted to its most recent 500
entries in order; in particular the log never exceeds 500 entries, and
once more than 500 (nonempty) lines have been appended it holds exactly
500. -/
theorem spec_C7 :
    ∀ (j : QJob) (msgs : List String), j.logs = [] →
      (appendAll j msgs).logs =
        ((msgs.map jsTrim).filter fun t => t ≠ "").drop
          (((msgs.map jsTrim).filter fun t => t ≠ "").length - 500)
      ∧ (appendAll j msgs).logs.length ≤ 500
      ∧ (500 ≤ ((msgs.map jsTrim).filter fun t => t ≠ "").length →
          (appendAll j msgs).logs.length = 500) := by
  intro j msgs h
  have key := appendAll_logs msgs [] j (by simpa using h)
  simp only [List.nil_append] at key
  refine ⟨key, ?_, ?_⟩
  · rw [key, List.length_drop]; omega
  · intro hlen; rw [key, List.length_drop]; omega

set_option maxRecDepth 10000 in
/-- Witness for C7: 501 appended lines leave exactly 500 retained. -/
theorem spec_C7_w :
    (newJob 0 "f").logs = []
    ∧ 500 ≤ (((List.replicate 501 "a").map jsTrim).filter fun t => t ≠ "").length
    ∧ (appendAll (newJob 0 "f") (List.replicate 501 "a")).logs.length = 500 :=
  ⟨rfl, by decide, (spec_C7 (newJob 0 "f") (List.replicate 501 "a") rfl).2.2 (by decide)⟩

/-! ### markJobSaved -/

lemma markJobSaved_none (id : Nat) (path : String) :
    ∀ q : List QJob, (∀ j ∈ q, j.id ≠ id) → markJobSaved q id path = (none, q) := by
  intro q
  induction q with
  | nil => intro _; rfl
  | cons j t ih =>
    intro h
    have hj : j.id ≠ id := h j (List.mem_cons_self j t)
    simp only [markJobSaved, if_neg hj]
    rw [ih (fun x hx => h x (List.mem_cons_of_mem j hx))]

lemma markJobSaved_found (id : Nat) (path : String) :
    ∀ (q : List QJob) (k : Nat) (jk : QJob), q[k]? = some jk → jk.id = id →
      (∀ m jm, m < k → q[m]? = some jm → jm.id ≠ id) →
      (markJobSaved q id path).1 = some (saveFields jk path)
      ∧ (markJobSaved q id path).2[k]? = some (saveFields jk path)
      ∧ (∀ m, m ≠ k → (markJobSaved q id path).2[m]? = q[m]?) := by
  intro q
  induction q with
  | nil => intro k jk hk; simp at hk
  | cons j t ih =>
    intro k jk hk hid hmin
    cases k with
    | zero =>
      rw [List.getElem?_cons_zero] at hk
      injection hk with hk'
      subst hk'
      have hq : markJobSaved (j :: t) id path =
          (some (saveFields j path), saveFields j path :: t) := by
        simp only [markJobSaved, if_pos hid]
      rw [hq]
      refine ⟨rfl, List.getElem?_cons_zero, ?_⟩
      intro m hm
      cases m with
      | zero => exact absurd rfl hm
      | succ m' => rw [List.getElem?_cons_succ, List.getElem?_cons_succ]
    | succ k' =>
      have hj : j.id ≠ id := hmin 0 j (Nat.succ_pos k') List.getElem?_cons_zero
      rw [List.getElem?_cons_succ] at hk
      have ih' := ih k' jk hk hid
        (fun m jm hm hget => hmin (m + 1) jm (by omega)
          (by rw [List.getElem?_cons_succ]; exact hget))
      simp only [markJobSaved, if_neg hj]
      refine ⟨ih'.1, ?_, ?_⟩
      · rw [List.getElem?_cons_succ]; exact ih'.2.1
      · intro m hm
        cases m with
        | zero => rw [List.getElem?_cons_zero, List.getElem?_cons_zero]
        | succ m' =>
          rw [List.getElem?_cons_succ, List.getElem?_cons_succ]
          exact ih'.2.2 m' (by omega)

/-- Claim C8: `markJobSaved` on an id present in the queue (whatever the
job's state) updates the first job carrying that id to status `success`
with the given save path recorded, the error cleared and progress 100,
returns that updated record, and leaves every other job unchanged; on an
unknown id it returns `null` and the queue is unchanged. -/
theorem spec_C8 :
    ∀ (q : List QJob) (id : Nat) (path : String),
      ((∀ j ∈ q, j.id ≠ id) → markJobSaved q id path = (none, q))
      ∧ (∀ (k : Nat) (jk : QJob), q[k]? = some jk → jk.id = id →
          (∀ (m : Nat) (jm : QJob), m < k → q[m]? = some jm → jm.id ≠ id) →
          (markJobSaved q id path).1 = some (saveFields jk path)
          ∧ (markJobSaved q id path).2[k]? = some (saveFields jk path)
          ∧ (∀ m, m ≠ k → (markJobSaved q id path).2[m]? = q[m]?)
          ∧ (saveFields jk path).status = .success
          ∧ (saveFields jk path).savePath = some path
          ∧ (saveFields jk path).error = none
          ∧ (saveFields jk path).progress = 100) := by
  intro q id path
  refine ⟨markJobSaved_none id path q, ?_⟩
  intro k jk hk hid hmin
  obtain ⟨h1, h2, h3⟩ := markJobSaved_found id path q k jk hk hid hmin
  exact ⟨h1, h2, h3, rfl, rfl, rfl, rfl⟩

/-- Witness for C8: a present id is saved, an absent id is a no-op. -/
theorem spec_C8_w :
    (markJobSaved [newJob 0 "f"] 0 "/dest").1 = some (saveFields (newJob 0 "f") "/dest")
    ∧ markJobSaved [newJob 0 "f"] 1 "/dest" = (none, [newJob 0 "f"]) :=
  ⟨((spec_C8 [newJob 0 "f"] 0 "/dest").2 0 (newJob 0 "f") List.getElem?_cons_zero rfl
      (fun m jm hm _ => absurd hm (Nat.not_lt_zero m))).1,
   (spec_C8 [newJob 0 "f"] 1 "/dest").1 (by decide)⟩

/-! ### History store -/

/-- Claim C10: `appendHistory` prepends the new record (newest first) and
truncates the stored list to at most 500 records, dropping the oldest
beyond that bound: the result is `(r :: h).take 500`, its head is the new
record, its length is `min (|h| + 1) 500 ≤ 500`, and nothing is dropped
while the store holds at most 499 records. -/
theorem spec_C10 :
    ∀ (h : List TranslationRecord) (r : TranslationRecord),
      appendHistory h r = (r :: h).take 500
      ∧ (appendHistory h r).length ≤ 500
      ∧ (appendHistory h r).head? = some r
      ∧ (h.length ≤ 499 → appendHistory h r = r :: h)
      ∧ (appendHistory h r).length = min (h.length + 1) 500 := by
  intro h r
  refine ⟨rfl, ?_, ?_, ?_, ?_⟩
  · simp only [appendHistory, List.length_take, List.length_cons]
    omega
  · show ((r :: h).take (499 + 1)).head? = some r
    rw [List.take_succ_cons]
    rfl
  · intro hle
    exact List.take_of_length_le (by simp only [List.length_cons]; omega)
  · simp only [appendHistory, List.length_take, List.length_cons]
    omega

/-- Sample history record for the C10 witness. -/
def sampleRec : TranslationRecord :=
  { id := 0, title := "t", sourcePath := "s", status := .queued, logs := [] }

/-- Witness for C10: appending to a small store drops nothing. -/
theorem spec_C10_w :
    ([] : List TranslationRecord).length ≤ 499
    ∧ appendHistory [] sampleRec = [sampleRec] :=
  ⟨by decide, (spec_C10 [] sampleRec).2.2.2.1 (by decide)⟩

/-! ### Trimming -/

lemma dropWhile_head_false {p : Char → Bool} :
    ∀ (l : List Char) (c : Char) (t : List Char), l.dropWhile p = c :: t → p c = false := by
  intro l
  induction l with
  | nil => intro c t h; exact absurd h (by simp)
  | cons a l' ih =>
    intro c t h
    rw [List.dropWhile_cons] at h
    by_cases ha : p a
    · rw [if_pos ha] at h
      exact ih c t h
    · rw [if_neg ha] at h
      injection h with h1 _
      subst h1
      simpa using ha

lemma head_of_dropWhile {p : Char → Bool} (l : List Char) (c : Char)
    (h : (l.dropWhile p).head? = some c) : p c = false := by
  cases hd : l.dropWhile p with
  | nil => rw [hd] at h; exact Option.noConfusion h
  | cons a t =>
    rw [hd] at h
    injection h with h1
    subst h1
    exact dropWhile_head_false l a t hd

lemma dropWhile_eq_self {p : Char → Bool} (l : List Char)
    (h : ∀ c, l.head? = some c → p c = false) : l.dropWhile p = l := by
  cases l with
  | nil => rfl
  | cons a t =>
    have ha := h a rfl
    rw [List.dropWhile_cons, if_neg (by simp [ha])]

lemma getLast?_dropWhile {p : Char → Bool} :
    ∀ l : List Char, l.dropWhile p ≠ [] → (l.dropWhile p).getLast? = l.getLast? := by
  intro l
  induction l with
  | nil => intro h; exact absurd rfl h
  | cons a t ih =>
    intro h
    by_cases ha : p a
    · rw [List.dropWhile_cons, if_pos ha] at h ⊢
      have ht : t ≠ [] := by
        intro h0
        rw [h0] at h
        exact h rfl
      cases t with
      | nil => exact absurd rfl ht
      | cons b t' =>
        rw [List.getLast?_cons_cons]
        exact ih h
    · rw [List.dropWhile_cons, if_neg ha]

lemma jsTrim_data (s : String) :
    (jsTrim s).data = ((s.data.dropWhile isWs).reverse.dropWhile isWs).reverse := rfl

lemma jsTrim_head (s : String) :
    ∀ c, (jsTrim s).data.head? = some c → isWs c = false := by
  intro c hc
  rw [jsTrim_data, List.head?_reverse] at hc
  have hne : (s.data.dropWhile isWs).reverse.dropWhile isWs ≠ [] := by
    intro h0
    rw [h0] at hc
    exact Option.noConfusion hc
  rw [getLast?_dropWhile _ hne, List.getLast?_reverse] at hc
  exact head_of_dropWhile s.data c hc

lemma jsTrim_last (s : String) :
    ∀ c, (jsTrim s).data.getLast? = some c → isWs c = false := by
  intro c hc
  rw [jsTrim_data, List.getLast?_reverse] at hc
  exact head_of_dropWhile _ c hc

lemma jsTrim_of_trimmed (s : String)
    (h1 : ∀ c, s.data.head? = some c → isWs c = false)
    (h2 : ∀ c, s.data.getLast? = some c → isWs c = false) : jsTrim s = s := by
  have hA : s.data.dropWhile isWs = s.data := dropWhile_eq_self _ h1
  have hB : s.data.reverse.dropWhile isWs = s.data.reverse := by
    apply dropWhile_eq_self
    intro c hc
    rw [List.head?_reverse] at hc
    exact h2 c hc
  show (⟨((s.data.dropWhile isWs).reverse.dropWhile isWs).reverse⟩ : String) = s
  rw [hA, hB, List.reverse_reverse]

lemma jsTrim_idem (s : String) : jsTrim (jsTrim s) = jsTrim s :=
  jsTrim_of_trimmed _ (jsTrim_head s) (jsTrim_last s)

/-! ### Stream consumption -/

/-- Claim C9 counterexample: a single `data` chunk containing two lines is
appended as ONE log entry holding the embedded newline; the source never
splits chunks into lines, so line-by-line consumption fails. -/
theorem spec_C9_cex :
    (onData (newJob 0 "f") "line1\nline2").1.logs = ["line1\nline2"]
    ∧ (["line1\nline2"] : List String) ≠ ["line1", "line2"] :=
  ⟨by decide, by decide⟩

lemma appendLog_snd_mem (j : QJob) (m : String) (h : jsTrim m ≠ "") :
    Ev.prog j.id (jsTrim m) ∈ (appendLog j m).2 ∧ Ev.hist j.id ∈ (appendLog j m).2 := by
  simp only [appendLog, if_neg h]
  constructor <;> simp [List.mem_append]

/-- Claim C9 (amended): stdout/stderr are consumed chunk-by-chunk as the
`data` events deliver them, with no line splitting and no partial-line
buffering: each chunk is trimmed and appended as a single log entry with
ring-buffer eviction, persisted, forwarded to the Event Sink as an
incremental-progress notification, and fed to the Progress Interpreter. -/
theorem spec_C9 :
    ∀ (j : QJob) (chunk : String), jsTrim chunk ≠ "" →
      (onData j chunk).1.logs = ringPush j.logs (jsTrim chunk)
      ∧ (onData j chunk).1.progress = processLine j.progress (jsTrim chunk)
      ∧ Ev.prog j.id (jsTrim chunk) ∈ (onData j chunk).2
      ∧ Ev.hist j.id ∈ (onData j chunk).2 := by
  intro j chunk h
  have hi := jsTrim_idem chunk
  unfold onData
  obtain ⟨hm1, hm2⟩ := appendLog_snd_mem j (jsTrim chunk) (by rw [hi]; exact h)
  rw [hi] at hm1
  refine ⟨?_, ?_, hm1, hm2⟩
  · rw [appendLog_logs, hi, if_neg h]
  · rw [appendLog_progress, hi, if_neg h]

/-- Witness for C9 at a concrete chunk. -/
theorem spec_C9_w :
    jsTrim "line1\nline2" ≠ ""
    ∧ (onData (newJob 0 "f") "line1\nline2").1.logs =
        ringPush (newJob 0 "f").logs (jsTrim "line1\nline2")
    ∧ Ev.prog 0 (jsTrim "line1\nline2") ∈ (onData (newJob 0 "f") "line1\nline2").2 :=
  ⟨by decide,
   (spec_C9 (newJob 0 "f") "line1\nline2" (by decide)).1,
   (spec_C9 (newJob 0 "f") "line1\nline2" (by decide)).2.2.1⟩

/-! ### Terminal transitions -/

lemma applyStages_at_100 (l : String) :
    ∀ tbl : List (String × Nat), (∀ r ∈ tbl, r.2 ≤ 100) → applyStages tbl 100 l = 100 := by
  intro tbl
  induction tbl with
  | nil => intro _; rfl
  | cons s rest ih =>
    intro h
    simp only [applyStages]
    split
    · rw [if_neg (by have := h s (List.mem_cons_self s rest); omega)]
    · exact ih (fun r hr => h r (List.mem_cons_of_mem s hr))

lemma tryParse_at_100 (l : String) : tryParseDebugProgress 100 l = 100 := by
  unfold tryParseDebugProgress
  split
  · rfl
  · split
    · rfl
    · split
      · next hcond =>
        exfalso
        simp only [Bool.and_eq_true, decide_eq_true_eq] at hcond
        omega
      · rfl

lemma processLine_at_100 (l : String) : processLine 100 l = 100 := by
  unfold processLine
  rw [tryParse_at_100]
  exact applyStages_at_100 l progressStages (by decide)

lemma appendLog_progress_100 (j : QJob) (m : String) (h : j.progress = 100) :
    (appendLog j m).1.progress = 100 := by
  rw [appendLog_progress]
  split
  · exact h
  · rw [h]
    exact processLine_at_100 _

lemma isPrefixOf_self (l : List Char) : l.isPrefixOf l = true := by
  induction l with
  | nil => rfl
  | cons a t ih => simp [List.isPrefixOf, ih]

lemma containsL_append_self (n : List Char) :
    ∀ a : List Char, containsL n (a ++ n) = true := by
  intro a
  induction a with
  | nil =>
    cases n with
    | nil => rfl
    | cons c t =>
      show ((c :: t).isPrefixOf (c :: t) || containsL (c :: t) t) = true
      rw [isPrefixOf_self, Bool.true_or]
  | cons x xs ih =>
    show (n.isPrefixOf (x :: (xs ++ n)) || containsL n (xs ++ n)) = true
    rw [ih, Bool.or_true]

lemma string_data_append (a b : String) : (a ++ b).data = a.data ++ b.data := rfl

lemma string_append_ne_empty (a b : String) (h : a.data ≠ []) : a ++ b ≠ "" := by
  intro hn
  have hd : (a ++ b).data = [] := by rw [hn]
  rw [string_data_append] at hd
  exact h (List.append_eq_nil.mp hd).1

lemma exitMsg_ne (c : Option Int) : exitMsg c ≠ "" :=
  string_append_ne_empty _ _ (by decide)

lemma exitMsg_contains (c : Option Int) :
    containsL (exitCodeStr c).data (exitMsg c).data = true := by
  show containsL (exitCodeStr c).data ("BabelDOC 退出码 " ++ exitCodeStr c).data = true
  rw [string_data_append]
  exact containsL_append_self _ _

lemma closeHandler_fail (j : QJob) (d : String) (c : Option Int) (h : ¬(c = some 0)) :
    (closeHandler j d c).1.status = .failed
    ∧ (closeHandler j d c).1.progress = 100
    ∧ (closeHandler j d c).1.error = some (exitMsg c)
    ∧ Ev.completed j.id false none (some (exitMsg c)) ∈ (closeHandler j d c).2 := by
  simp only [closeHandler, if_neg h]
  refine ⟨?_, ?_, ?_, ?_⟩
  · rw [appendLog_status]
  · exact appendLog_progress_100 _ _ rfl
  · rw [appendLog_error]
  · simp [List.mem_append]

lemma dispatch_idle (q : List QJob) (a : Option Nat) :
    (startFirstQueued q = none → dispatch ⟨q, false, a⟩ = ⟨q, false, a⟩)
    ∧ (∀ i q', startFirstQueued q = some (i, q') → dispatch ⟨q, false, a⟩ = ⟨q', true, some i⟩) := by
  constructor
  · intro h; simp [dispatch, h]
  · intro i q' h; simp [dispatch, h]

/-- Claim C5: on a process `close` with code 0 the job moves from its
running state to `awaiting-user` with progress 100, `outputDir` set (in
the dispatch loop, to the job's dedicated output directory), `error`
absent, and a completed event with success is emitted. -/
theorem spec_C5 :
    ∀ (j : QJob) (d : String),
      (closeHandler j d (some 0)).1 =
        { j with status := .awaitingUser, progress := 100, outputDir := some d, error := none }
      ∧ Ev.completed j.id true (some d) none ∈ (closeHandler j d (some 0)).2
      ∧ (∀ s : MState, ∀ j2 ∈ s.queue, s.active = some j2.id →
          ∃ j' ∈ closeQueue s (some 0),
            j'.id = j2.id ∧ j'.status = .awaitingUser ∧ j'.progress = 100
            ∧ j'.outputDir = some (outDirOf j2.id) ∧ j'.error = none) := by
  intro j d
  refine ⟨by simp [closeHandler], by simp [closeHandler], ?_⟩
  intro s j2 hmem hact
  refine ⟨(closeHandler j2 (outDirOf j2.id) (some 0)).1, ?_, by simp [closeHandler],
    by simp [closeHandler], by simp [closeHandler], by simp [closeHandler],
    by simp [closeHandler]⟩
  simp only [closeQueue]
  exact List.mem_map.mpr ⟨j2, hmem, by rw [if_pos hact]⟩

/-- Witness for C5 on a one-job queue. -/
theorem spec_C5_w :
    (closeHandler (newJob 0 "f") "od" (some 0)).1 =
      { newJob 0 "f" with
          status := .awaitingUser, progress := 100, outputDir := some "od", error := none }
    ∧ Ev.completed 0 true (some "od") none ∈ (closeHandler (newJob 0 "f") "od" (some 0)).2
    ∧ (∃ j' ∈ closeQueue ⟨[startJob (newJob 0 "f")], true, some 0⟩ (some 0),
        j'.id = 0 ∧ j'.status = .awaitingUser ∧ j'.progress = 100
        ∧ j'.outputDir = some (outDirOf 0) ∧ j'.error = none) :=
  ⟨(spec_C5 (newJob 0 "f") "od").1,
   (spec_C5 (newJob 0 "f") "od").2.1,
   (spec_C5 (newJob 0 "f") "od").2.2 ⟨[startJob (newJob 0 "f")], true, some 0⟩
     (startJob (newJob 0 "f")) (List.mem_singleton.mpr rfl) rfl⟩

/-- Claim C6: on a process `close` with a nonzero exit code, or on a
spawn/runtime `error` with a (nonempty) message, the job moves to `failed`
with progress 100 and a nonempty error message embedding the exit code
(resp. the underlying error text), a completed event with failure is
emitted, and completion always re-invokes the dispatch step, which starts
the next queued job whenever one exists. -/
theorem spec_C6 :
    (∀ (j : QJob) (d : String) (c : Int), c ≠ 0 →
      (closeHandler j d (some c)).1.status = .failed
      ∧ (closeHandler j d (some c)).1.progress = 100
      ∧ (closeHandler j d (some c)).1.error = some (exitMsg (some c))
      ∧ exitMsg (some c) ≠ ""
      ∧ containsL (toString c).data (exitMsg (some c)).data = true
      ∧ Ev.completed j.id false none (some (exitMsg (some c))) ∈ (closeHandler j d (some c)).2)
    ∧ (∀ (j : QJob) (m : String), m ≠ "" →
      (errorHandler j m).1.status = .failed
      ∧ (errorHandler j m).1.progress = 100
      ∧ (errorHandler j m).1.error = some m
      ∧ Ev.completed j.id false none (some m) ∈ (errorHandler j m).2)
    ∧ (∀ (s : MState) (c : Option Int),
        (startFirstQueued (closeQueue s c) = none →
          step s (.close c) = ⟨closeQueue s c, false, none⟩)
        ∧ (∀ i q', startFirstQueued (closeQueue s c) = some (i, q') →
            step s (.close c) = ⟨q', true, some i⟩))
    ∧ (∀ (s : MState) (m : String),
        (startFirstQueued (errQueue s m) = none →
          step s (.perr m) = ⟨errQueue s m, false, none⟩)
        ∧ (∀ i q', startFirstQueued (errQueue s m) = some (i, q') →
            step s (.perr m) = ⟨q', true, some i⟩)) := by
  refine ⟨?_, ?_, ?_, ?_⟩
  · intro j d c hc
    have h0 : ¬((some c : Option Int) = some 0) := fun hh => hc (Option.some.inj hh)
    obtain ⟨h1, h2, h3, h4⟩ := closeHandler_fail j d (some c) h0
    exact ⟨h1, h2, h3, exitMsg_ne _, exitMsg_contains (some c), h4⟩
  · intro j m hm
    refine ⟨?_, ?_, ?_, ?_⟩
    · simp only [errorHandler]
      rw [appendLog_status]
    · simp only [errorHandler]
      exact appendLog_progress_100 _ _ rfl
    · simp only [errorHandler]
      rw [appendLog_error]
    · simp only [errorHandler]
      simp [List.mem_append]
  · intro s c
    exact dispatch_idle (closeQueue s c) none
  · intro s m
    exact dispatch_idle (errQueue s m) none

/-- Witness for C6: on a two-job queue, exit code 1 (resp. a spawn error)
fails the first job and the dispatch step starts the second. -/
theorem spec_C6_w :
    (1 : Int) ≠ 0
    ∧ (closeHandler (newJob 0 "f") "od" (some 1)).1.status = .failed
    ∧ (closeHandler (newJob 0 "f") "od" (some 1)).1.error = some (exitMsg (some 1))
    ∧ ("x" : String) ≠ ""
    ∧ (errorHandler (newJob 0 "f") "x").1.status = .failed
    ∧ step ⟨[startJob (newJob 0 "f"), newJob 1 "g"], true, some 0⟩ (.close (some 1)) =
        ⟨[(closeHandler (startJob (newJob 0 "f")) (outDirOf 0) (some 1)).1,
          startJob (newJob 1 "g")], true, some 1⟩
    ∧ step ⟨[startJob (newJob 0 "f"), newJob 1 "g"], true, some 0⟩ (.perr "x") =
        ⟨[(errorHandler (startJob (newJob 0 "f")) "x").1,
          startJob (newJob 1 "g")], true, some 1⟩ := by
  refine ⟨by decide, ?_, ?_, by decide, ?_, ?_, ?_⟩
  · exact ((spec_C6.1 (newJob 0 "f") "od" 1 (by decide)).1)
  · exact ((spec_C6.1 (newJob 0 "f") "od" 1 (by decide)).2.2.1)
  · exact ((spec_C6.2.1 (newJob 0 "f") "x" (by decide)).1)
  · exact ((spec_C6.2.2.1 ⟨[startJob (newJob 0 "f"), newJob 1 "g"], true, some 0⟩
      (some 1)).2 1 _ (by decide))
  · exact ((spec_C6.2.2.2 ⟨[startJob (newJob 0 "f"), newJob 1 "g"], true, some 0⟩
      "x").2 1 _ (by decide))


/-! ### Single-flight dispatch invariants -/

lemma sfq_none : ∀ q : List QJob, startFirstQueued q = none → ∀ j ∈ q, j.status ≠ .queued := by
  intro q
  induction q with
  | nil => intro _ j hj; exact absurd hj (List.not_mem_nil j)
  | cons j t ih =>
    intro h j' hj'
    by_cases hq : j.status = .queued
    · simp only [startFirstQueued, if_pos hq] at h
      exact Option.noConfusion h
    · simp only [startFirstQueued, if_neg hq] at h
      rcases List.mem_cons.mp hj' with rfl | hmem
      · exact hq
      · cases hrec : startFirstQueued t with
        | none => exact ih hrec j' hmem
        | some v =>
          rw [hrec] at h
          obtain ⟨i0, t'⟩ := v
          exact absurd h (by simp)

lemma sfq_some : ∀ (q : List QJob) (i : Nat) (q' : List QJob),
    startFirstQueued q = some (i, q') →
    ∃ (k : Nat) (jk : QJob), q[k]? = some jk ∧ jk.status = .queued
      ∧ (∀ (m : Nat) (jm : QJob), m < k → q[m]? = some jm → jm.status ≠ .queued)
      ∧ i = jk.id ∧ q'[k]? = some (startJob jk)
      ∧ (∀ m : Nat, m ≠ k → q'[m]? = q[m]?) ∧ q'.length = q.length := by
  intro q
  induction q with
  | nil => intro i q' h; exact absurd h (by simp [startFirstQueued])
  | cons j t ih =>
    intro i q' h
    by_cases hq : j.status = .queued
    · simp only [startFirstQueued, if_pos hq] at h
      have hpair := Option.some.inj h
      have hi : j.id = i := congrArg Prod.fst hpair
      have hq2 : startJob j :: t = q' := congrArg Prod.snd hpair
      subst hq2
      refine ⟨0, j, List.getElem?_cons_zero, hq, ?_, hi.symm, List.getElem?_cons_zero, ?_, rfl⟩
      · intro m jm hm _
        exact absurd hm (Nat.not_lt_zero m)
      · intro m hm
        cases m with
        | zero => exact absurd rfl hm
        | succ m' => rw [List.getElem?_cons_succ, List.getElem?_cons_succ]
    · simp only [startFirstQueued, if_neg hq] at h
      cases hrec : startFirstQueued t with
      | none => rw [hrec] at h; exact absurd h (by simp)
      | some v =>
        obtain ⟨i0, t'⟩ := v
        rw [hrec] at h
        have hpair := Option.some.inj h
        have hi : i0 = i := congrArg Prod.fst hpair
        have hq2 : j :: t' = q' := congrArg Prod.snd hpair
        subst hq2
        subst hi
        obtain ⟨k, jk, hget, hst, hmin, hid, hget', hoth, hlen⟩ := ih i0 t' hrec
        refine ⟨k + 1, jk, ?_, hst, ?_, hid, ?_, ?_, ?_⟩
        · rw [List.getElem?_cons_succ]; exact hget
        · intro m jm hm hget2
          cases m with
          | zero =>
            rw [List.getElem?_cons_zero] at hget2
            injection hget2 with he
            subst he
            exact hq
          | succ m' =>
            rw [List.getElem?_cons_succ] at hget2
            exact hmin m' jm (by omega) hget2
        · rw [List.getElem?_cons_succ]; exact hget'
        · intro m hm
          cases m with
          | zero => rw [List.getElem?_cons_zero, List.getElem?_cons_zero]
          | succ m' =>
            rw [List.getElem?_cons_succ, List.getElem?_cons_succ]
            exact hoth m' (by omega)
        · simp only [List.length_cons, hlen]

lemma countRunning_cons (j : QJob) (t : List QJob) :
    countRunning (j :: t) = (if j.status = .running then 1 else 0) + countRunning t := by
  by_cases h : j.status = .running
  · simp [countRunning, List.filter_cons, h, Nat.add_comm]
  · simp [countRunning, List.filter_cons, h]

lemma countRunning_eq_zero (q : List QJob) :
    countRunning q = 0 ↔ ∀ j ∈ q, j.status ≠ .running := by
  simp [countRunning, List.length_eq_zero, List.filter_eq_nil_iff]

lemma countRunning_append (a b : List QJob) :
    countRunning (a ++ b) = countRunning a + countRunning b := by
  simp [countRunning, List.filter_append]

lemma sfq_count : ∀ (q : List QJob) (i : Nat) (q' : List QJob),
    startFirstQueued q = some (i, q') → countRunning q' = countRunning q + 1 := by
  intro q
  induction q with
  | nil => intro i q' h; exact absurd h (by simp [startFirstQueued])
  | cons j t ih =>
    intro i q' h
    by_cases hq : j.status = .queued
    · simp only [startFirstQueued, if_pos hq] at h
      have hq2 : startJob j :: t = q' := congrArg Prod.snd (Option.some.inj h)
      subst hq2
      rw [countRunning_cons, countRunning_cons]
      have hs : (startJob j).status = JobStatus.running := rfl
      rw [if_pos hs, if_neg (by rw [hq]; intro hc; exact JobStatus.noConfusion hc)]
      omega
    · simp only [startFirstQueued, if_neg hq] at h
      cases hrec : startFirstQueued t with
      | none => rw [hrec] at h; exact absurd h (by simp)
      | some v =>
        obtain ⟨i0, t'⟩ := v
        rw [hrec] at h
        have hq2 : j :: t' = q' := congrArg Prod.snd (Option.some.inj h)
        subst hq2
        rw [countRunning_cons, countRunning_cons, ih i0 t' hrec]
        omega

lemma sfq_running_src : ∀ (q : List QJob) (i : Nat) (q' : List QJob),
    startFirstQueued q = some (i, q') →
    ∀ j' ∈ q', j'.status = .running → j'.id = i ∨ (j' ∈ q ∧ j'.status = .running) := by
  intro q
  induction q with
  | nil => intro i q' h; exact absurd h (by simp [startFirstQueued])
  | cons j t ih =>
    intro i q' h j' hj' hrun
    by_cases hq : j.status = .queued
    · simp only [startFirstQueued, if_pos hq] at h
      have hpair := Option.some.inj h
      have hi : j.id = i := congrArg Prod.fst hpair
      have hq2 : startJob j :: t = q' := congrArg Prod.snd hpair
      subst hq2
      rcases List.mem_cons.mp hj' with rfl | hmem
      · left; rw [← hi]; rfl
      · right; exact ⟨List.mem_cons_of_mem j hmem, hrun⟩
    · simp only [startFirstQueued, if_neg hq] at h
      cases hrec : startFirstQueued t with
      | none => rw [hrec] at h; exact absurd h (by simp)
      | some v =>
        obtain ⟨i0, t'⟩ := v
        rw [hrec] at h
        have hpair := Option.some.inj h
        have hi : i0 = i := congrArg Prod.fst hpair
        have hq2 : j :: t' = q' := congrArg Prod.snd hpair
        subst hq2
        subst hi
        rcases List.mem_cons.mp hj' with rfl | hmem
        · right; exact ⟨List.mem_cons_self j' t, hrun⟩
        · rcases ih i0 t' hrec j' hmem hrun with hid | ⟨hm2, hr2⟩
          · left; exact hid
          · right; exact ⟨List.mem_cons_of_mem j hm2, hr2⟩

/-- The single-flight invariant: at most one job is `running`, none is
when the `processing` flag is down, and any running job is the one whose
`runJob` promise is in flight. -/
def InvA (s : MState) : Prop :=
  countRunning s.queue ≤ 1
  ∧ (s.processing = false → countRunning s.queue = 0)
  ∧ (∀ j ∈ s.queue, j.status = .running → s.active = some j.id)

lemma invA_dispatch (s : MState) (h : InvA s) : InvA (dispatch s) := by
  obtain ⟨h1, h2, h3⟩ := h
  unfold dispatch
  split
  · exact ⟨h1, h2, h3⟩
  · next hp =>
    have hp' : s.processing = false := by simpa using hp
    have hc0 := h2 hp'
    cases hsfq : startFirstQueued s.queue with
    | none => exact ⟨h1, h2, h3⟩
    | some v =>
      obtain ⟨i, q'⟩ := v
      refine ⟨?_, ?_, ?_⟩
      · show countRunning q' ≤ 1
        rw [sfq_count s.queue i q' hsfq, hc0]
      · intro hfalse
        exact absurd hfalse (by simp)
      · intro j hj hrun
        rcases sfq_running_src s.queue i q' hsfq j hj hrun with hid | ⟨hmem, hrun'⟩
        · show some i = some j.id
          rw [hid]
        · exact absurd hrun' ((countRunning_eq_zero s.queue).mp hc0 j hmem)

lemma closeHandler_not_running (j : QJob) (d : String) (c : Option Int) :
    (closeHandler j d c).1.status ≠ .running := by
  unfold closeHandler
  split
  · intro hc; exact JobStatus.noConfusion hc
  · rw [appendLog_status]
    intro hc; exact JobStatus.noConfusion hc

lemma closeHandler_not_queued (j : QJob) (d : String) (c : Option Int) :
    (closeHandler j d c).1.status ≠ .queued := by
  unfold closeHandler
  split
  · intro hc; exact JobStatus.noConfusion hc
  · rw [appendLog_status]
    intro hc; exact JobStatus.noConfusion hc

lemma closeHandler_id (j : QJob) (d : String) (c : Option Int) :
    (closeHandler j d c).1.id = j.id := by
  unfold closeHandler
  split
  · rfl
  · rw [appendLog_id]

lemma errorHandler_not_running (j : QJob) (m : String) :
    (errorHandler j m).1.status ≠ .running := by
  simp only [errorHandler]
  rw [appendLog_status]
  intro hc; exact JobStatus.noConfusion hc

lemma errorHandler_not_queued (j : QJob) (m : String) :
    (errorHandler j m).1.status ≠ .queued := by
  simp only [errorHandler]
  rw [appendLog_status]
  intro hc; exact JobStatus.noConfusion hc

lemma errorHandler_id (j : QJob) (m : String) :
    (errorHandler j m).1.id = j.id := by
  simp only [errorHandler]
  rw [appendLog_id]

lemma mjs_count : ∀ (q : List QJob) (id : Nat) (path : String),
    countRunning (markJobSaved q id path).2 ≤ countRunning q := by
  intro q id path
  induction q with
  | nil => exact Nat.le_refl _
  | cons j t ih =>
    by_cases hj : j.id = id
    · simp only [markJobSaved, if_pos hj]
      rw [countRunning_cons, countRunning_cons,
        if_neg (fun hc => JobStatus.noConfusion hc)]
      split <;> omega
    · simp only [markJobSaved, if_neg hj]
      rw [countRunning_cons, countRunning_cons]
      split <;> omega

lemma mjs_running : ∀ (q : List QJob) (id : Nat) (path : String) (j' : QJob),
    j' ∈ (markJobSaved q id path).2 → j'.status = .running → j' ∈ q := by
  intro q id path
  induction q with
  | nil => intro j' hj' _; exact absurd hj' (List.not_mem_nil j')
  | cons j t ih =>
    intro j' hj' hrun
    by_cases hid : j.id = id
    · simp only [markJobSaved, if_pos hid] at hj'
      rcases List.mem_cons.mp hj' with rfl | hm
      · exact absurd hrun (fun hc => JobStatus.noConfusion hc)
      · exact List.mem_cons_of_mem j hm
    · simp only [markJobSaved, if_neg hid] at hj'
      rcases List.mem_cons.mp hj' with rfl | hm
      · exact List.mem_cons_self j' t
      · exact List.mem_cons_of_mem j (ih j' hm hrun)

lemma invA_step (s : MState) (e : MEvent) (hA : InvA s) (he : e ≠ .envFail) :
    InvA (step s e) := by
  obtain ⟨h1, h2, h3⟩ := hA
  cases e with
  | enq fp =>
    apply invA_dispatch
    have hcnt : countRunning (s.queue ++ [newJob s.queue.length fp]) = countRunning s.queue := by
      rw [countRunning_append]
      rfl
    refine ⟨?_, ?_, ?_⟩
    · show countRunning (s.queue ++ [newJob s.queue.length fp]) ≤ 1
      rw [hcnt]; exact h1
    · intro hp
      show countRunning (s.queue ++ [newJob s.queue.length fp]) = 0
      rw [hcnt]; exact h2 hp
    · intro j hj hrun
      rcases List.mem_append.mp hj with hm | hm
      · exact h3 j hm hrun
      · rcases List.mem_singleton.mp hm with rfl
        exact absurd hrun (fun hc => JobStatus.noConfusion hc)
  | close c =>
    apply invA_dispatch
    have hz : countRunning (closeQueue s c) = 0 := by
      rw [countRunning_eq_zero]
      intro j' hj'
      rcases List.mem_map.mp hj' with ⟨j0, hj0, rfl⟩
      by_cases ha : s.active = some j0.id
      · rw [if_pos ha]
        exact closeHandler_not_running j0 _ c
      · rw [if_neg ha]
        intro hrun
        exact ha (h3 j0 hj0 hrun)
    refine ⟨?_, ?_, ?_⟩
    · show countRunning (closeQueue s c) ≤ 1
      rw [hz]; exact Nat.zero_le 1
    · intro _; exact hz
    · intro j hj hrun
      exact absurd hrun ((countRunning_eq_zero _).mp hz j hj)
  | perr m =>
    apply invA_dispatch
    have hz : countRunning (errQueue s m) = 0 := by
      rw [countRunning_eq_zero]
      intro j' hj'
      rcases List.mem_map.mp hj' with ⟨j0, hj0, rfl⟩
      by_cases ha : s.active = some j0.id
      · rw [if_pos ha]
        exact errorHandler_not_running j0 m
      · rw [if_neg ha]
        intro hrun
        exact ha (h3 j0 hj0 hrun)
    refine ⟨?_, ?_, ?_⟩
    · show countRunning (errQueue s m) ≤ 1
      rw [hz]; exact Nat.zero_le 1
    · intro _; exact hz
    · intro j hj hrun
      exact absurd hrun ((countRunning_eq_zero _).mp hz j hj)
  | envFail => exact absurd rfl he
  | save id path =>
    refine ⟨?_, ?_, ?_⟩
    · show countRunning (markJobSaved s.queue id path).2 ≤ 1
      have := mjs_count s.queue id path
      omega
    · intro hp
      show countRunning (markJobSaved s.queue id path).2 = 0
      have hc := mjs_count s.queue id path
      have := h2 hp
      omega
    · intro j hj hrun
      exact h3 j (mjs_running s.queue id path j hj hrun) hrun

lemma invA_init : InvA initState :=
  ⟨Nat.zero_le 1, fun _ => rfl, fun j hj => absurd hj (List.not_mem_nil j)⟩

lemma invA_fold : ∀ (es : List MEvent) (s : MState), InvA s →
    (∀ e ∈ es, e ≠ .envFail) → InvA (es.foldl step s) := by
  intro es
  induction es with
  | nil => intro s h _; exact h
  | cons e es' ih =>
    intro s h hall
    exact ih (step s e) (invA_step s e h (hall e (List.mem_cons_self e es')))
      (fun e' he' => hall e' (List.mem_cons_of_mem e he'))


/-- Positional id discipline and the active-job obligation: ids equal
queue positions (fresh id per enqueue), and the in-flight id always names
a job that has left `queued`. -/
def InvB (s : MState) : Prop :=
  (∀ (k : Nat) (j : QJob), s.queue[k]? = some j → j.id = k)
  ∧ (∀ i : Nat, s.active = some i → ∃ j, s.queue[i]? = some j ∧ j.status ≠ .queued)

lemma getElem?_lt_of_some {α : Type} (l : List α) (n : Nat) (a : α)
    (h : l[n]? = some a) : n < l.length := by
  by_contra hc
  rw [List.getElem?_eq_none (by omega)] at h
  exact Option.noConfusion h

lemma invB_dispatch (s : MState) (h : InvB s) : InvB (dispatch s) := by
  obtain ⟨h1, h2⟩ := h
  unfold dispatch
  split
  · exact ⟨h1, h2⟩
  · cases hsfq : startFirstQueued s.queue with
    | none => exact ⟨h1, h2⟩
    | some v =>
      obtain ⟨i, q'⟩ := v
      obtain ⟨k, jk, hget, hst, hmin, hid, hget', hoth, hlen⟩ := sfq_some s.queue i q' hsfq
      have hik : i = k := by rw [hid, h1 k jk hget]
      constructor
      · intro k' j' hg
        by_cases hk : k' = k
        · subst hk
          show j'.id = k'
          rw [hget'] at hg
          injection hg with hg
          subst hg
          show (startJob jk).id = k'
          show jk.id = k'
          exact h1 k' jk hget
        · show j'.id = k'
          rw [hoth k' hk] at hg
          exact h1 k' j' hg
      · intro i' ha
        have hii : i = i' := Option.some.inj ha
        subst hii
        refine ⟨startJob jk, ?_, ?_⟩
        · show q'[i]? = some (startJob jk)
          rw [hik]
          exact hget'
        · intro hqs
          exact JobStatus.noConfusion hqs

lemma mjs_get : ∀ (q : List QJob) (id : Nat) (path : String) (k : Nat),
    (markJobSaved q id path).2[k]? = q[k]?
    ∨ ∃ j0, q[k]? = some j0 ∧ (markJobSaved q id path).2[k]? = some (saveFields j0 path) := by
  intro q id path
  induction q with
  | nil => intro k; left; rfl
  | cons j t ih =>
    intro k
    by_cases hid : j.id = id
    · simp only [markJobSaved, if_pos hid]
      cases k with
      | zero => right; exact ⟨j, List.getElem?_cons_zero, List.getElem?_cons_zero⟩
      | succ k' => left; rw [List.getElem?_cons_succ, List.getElem?_cons_succ]
    · simp only [markJobSaved, if_neg hid]
      cases k with
      | zero => left; rw [List.getElem?_cons_zero, List.getElem?_cons_zero]
      | succ k' =>
        rcases ih k' with heq | ⟨j0, hg0, heq⟩
        · left
          rw [List.getElem?_cons_succ, List.getElem?_cons_succ]
          exact heq
        · right
          refine ⟨j0, ?_, ?_⟩
          · rw [List.getElem?_cons_succ]; exact hg0
          · rw [List.getElem?_cons_succ]; exact heq

lemma invB_step (s : MState) (e : MEvent) (h : InvB s) : InvB (step s e) := by
  obtain ⟨h1, h2⟩ := h
  cases e with
  | enq fp =>
    apply invB_dispatch
    constructor
    · intro k j hg
      show j.id = k
      by_cases hk : k < s.queue.length
      · rw [List.getElem?_append_left hk] at hg
        exact h1 k j hg
      · have hlt := getElem?_lt_of_some _ _ _ hg
        rw [List.length_append, List.length_cons, List.length_nil] at hlt
        have hke : k = s.queue.length := by omega
        subst hke
        rw [List.getElem?_concat_length] at hg
        injection hg with hg
        subst hg
        rfl
    · intro i ha
      obtain ⟨j, hg, hst⟩ := h2 i ha
      refine ⟨j, ?_, hst⟩
      show (s.queue ++ [newJob s.queue.length fp])[i]? = some j
      rw [List.getElem?_append_left (getElem?_lt_of_some _ _ _ hg)]
      exact hg
  | close c =>
    apply invB_dispatch
    constructor
    · intro k j hg
      show j.id = k
      simp only [closeQueue] at hg
      rw [List.getElem?_map] at hg
      cases hq : s.queue[k]? with
      | none => rw [hq] at hg; exact Option.noConfusion hg
      | some j0 =>
        rw [hq] at hg
        simp only [Option.map_some'] at hg
        injection hg with hg
        subst hg
        by_cases ha : s.active = some j0.id
        · rw [if_pos ha, closeHandler_id]
          exact h1 k j0 hq
        · rw [if_neg ha]
          exact h1 k j0 hq
    · intro i ha
      exact Option.noConfusion ha
  | perr m =>
    apply invB_dispatch
    constructor
    · intro k j hg
      show j.id = k
      simp only [errQueue] at hg
      rw [List.getElem?_map] at hg
      cases hq : s.queue[k]? with
      | none => rw [hq] at hg; exact Option.noConfusion hg
      | some j0 =>
        rw [hq] at hg
        simp only [Option.map_some'] at hg
        injection hg with hg
        subst hg
        by_cases ha : s.active = some j0.id
        · rw [if_pos ha, errorHandler_id]
          exact h1 k j0 hq
        · rw [if_neg ha]
          exact h1 k j0 hq
    · intro i ha
      exact Option.noConfusion ha
  | envFail =>
    apply invB_dispatch
    exact ⟨h1, fun i ha => Option.noConfusion ha⟩
  | save id path =>
    constructor
    · intro k j hg
      have hg2 : (markJobSaved s.queue id path).2[k]? = some j := hg
      show j.id = k
      rcases mjs_get s.queue id path k with heq | ⟨j0, hg0, heq⟩
      · rw [heq] at hg2
        exact h1 k j hg2
      · rw [heq] at hg2
        injection hg2 with hg2
        subst hg2
        show j0.id = k
        exact h1 k j0 hg0
    · intro i ha
      have ha2 : s.active = some i := ha
      obtain ⟨j, hg, hst⟩ := h2 i ha2
      rcases mjs_get s.queue id path i with heq | ⟨j0, hg0, heq⟩
      · refine ⟨j, ?_, hst⟩
        show (markJobSaved s.queue id path).2[i]? = some j
        rw [heq]
        exact hg
      · refine ⟨saveFields j0 path, heq, ?_⟩
        intro hqs
        exact JobStatus.noConfusion hqs

lemma invB_init : InvB initState :=
  ⟨fun k j hg => absurd hg (by simp [initState]), fun i ha => Option.noConfusion ha⟩

lemma invB_fold : ∀ (es : List MEvent) (s : MState), InvB s → InvB (es.foldl step s) := by
  intro es
  induction es with
  | nil => intro s h; exact h
  | cons e es' ih => intro s h; exact ih (step s e) (invB_step s e h)

/-- The FIFO shape of the queue: every job in front of a non-`queued` job
has itself left `queued` — the started (or finished) jobs form a prefix
and the still-queued jobs a suffix, so the first queued job is the oldest
one. -/
def PrefixNQ (q : List QJob) : Prop :=
  ∀ (a b : Nat) (ja jb : QJob), a ≤ b → q[a]? = some ja → q[b]? = some jb →
    jb.status ≠ .queued → ja.status ≠ .queued

lemma prefixNQ_dispatch (s : MState) (h : PrefixNQ s.queue) :
    PrefixNQ (dispatch s).queue := by
  unfold dispatch
  split
  · exact h
  · cases hsfq : startFirstQueued s.queue with
    | none => exact h
    | some v =>
      obtain ⟨i, q'⟩ := v
      obtain ⟨k, jk, hget, hst, hmin, hid, hget', hoth, hlen⟩ := sfq_some s.queue i q' hsfq
      show PrefixNQ q'
      intro a b ja jb hab hga hgb hnb
      by_cases hak : a = k
      · subst hak
        rw [hget'] at hga
        injection hga with hga
        subst hga
        intro hqs
        exact JobStatus.noConfusion hqs
      · rw [hoth a hak] at hga
        by_cases hbk : b = k
        · subst hbk
          exact hmin a ja (by omega) hga
        · rw [hoth b hbk] at hgb
          exact h a b ja jb hab hga hgb hnb

lemma prefixNQ_step (s : MState) (e : MEvent) (hB : InvB s) (h : PrefixNQ s.queue)
    (hsave : ∀ id path, e ≠ .save id path) : PrefixNQ (step s e).queue := by
  obtain ⟨hB1, hB2⟩ := hB
  cases e with
  | enq fp =>
    apply prefixNQ_dispatch
    show PrefixNQ (s.queue ++ [newJob s.queue.length fp])
    intro a b ja jb hab hga hgb hnb
    have hb := getElem?_lt_of_some _ _ _ hgb
    rw [List.length_append, List.length_cons, List.length_nil] at hb
    by_cases hblen : b < s.queue.length
    · rw [List.getElem?_append_left hblen] at hgb
      rw [List.getElem?_append_left (by omega)] at hga
      exact h a b ja jb hab hga hgb hnb
    · have hbe : b = s.queue.length := by omega
      subst hbe
      rw [List.getElem?_concat_length] at hgb
      injection hgb with hgb
      subst hgb
      exact absurd rfl hnb
  | close c =>
    apply prefixNQ_dispatch
    show PrefixNQ (closeQueue s c)
    intro a b ja jb hab hga hgb hnb
    simp only [closeQueue] at hga hgb
    rw [List.getElem?_map] at hga hgb
    cases hqa : s.queue[a]? with
    | none => rw [hqa] at hga; exact Option.noConfusion hga
    | some ja0 =>
      cases hqb : s.queue[b]? with
      | none => rw [hqb] at hgb; exact Option.noConfusion hgb
      | some jb0 =>
        rw [hqa] at hga
        rw [hqb] at hgb
        simp only [Option.map_some'] at hga hgb
        injection hga with hga
        injection hgb with hgb
        subst hga
        subst hgb
        by_cases haa : s.active = some ja0.id
        · rw [if_pos haa]
          exact closeHandler_not_queued ja0 _ c
        · rw [if_neg haa]
          have hjb0 : jb0.status ≠ .queued := by
            by_cases hab2 : s.active = some jb0.id
            · obtain ⟨jw, hw, hwst⟩ := hB2 jb0.id hab2
              have hidb : jb0.id = b := hB1 b jb0 hqb
              rw [hidb, hqb] at hw
              injection hw with hw
              subst hw
              exact hwst
            · rw [if_neg hab2] at hnb
              exact hnb
          exact h a b ja0 jb0 hab hqa hqb hjb0
  | perr m =>
    apply prefixNQ_dispatch
    show PrefixNQ (errQueue s m)
    intro a b ja jb hab hga hgb hnb
    simp only [errQueue] at hga hgb
    rw [List.getElem?_map] at hga hgb
    cases hqa : s.queue[a]? with
    | none => rw [hqa] at hga; exact Option.noConfusion hga
    | some ja0 =>
      cases hqb : s.queue[b]? with
      | none => rw [hqb] at hgb; exact Option.noConfusion hgb
      | some jb0 =>
        rw [hqa] at hga
        rw [hqb] at hgb
        simp only [Option.map_some'] at hga hgb
        injection hga with hga
        injection hgb with hgb
        subst hga
        subst hgb
        by_cases haa : s.active = some ja0.id
        · rw [if_pos haa]
          exact errorHandler_not_queued ja0 m
        · rw [if_neg haa]
          have hjb0 : jb0.status ≠ .queued := by
            by_cases hab2 : s.active = some jb0.id
            · obtain ⟨jw, hw, hwst⟩ := hB2 jb0.id hab2
              have hidb : jb0.id = b := hB1 b jb0 hqb
              rw [hidb, hqb] at hw
              injection hw with hw
              subst hw
              exact hwst
            · rw [if_neg hab2] at hnb
              exact hnb
          exact h a b ja0 jb0 hab hqa hqb hjb0
  | envFail =>
    apply prefixNQ_dispatch
    exact h
  | save id path => exact absurd rfl (hsave id path)

lemma prefixNQ_init : PrefixNQ initState.queue := by
  intro a b ja jb _ hga _ _
  exact absurd hga (by simp [initState])

lemma prefixNQ_fold : ∀ (es : List MEvent) (s : MState), InvB s → PrefixNQ s.queue →
    (∀ e ∈ es, ∀ id path, e ≠ .save id path) → PrefixNQ (es.foldl step s).queue := by
  intro es
  induction es with
  | nil => intro s _ h _; exact h
  | cons e es' ih =>
    intro s hB h hall
    exact ih (step s e) (invB_step s e hB)
      (prefixNQ_step s e hB h (hall e (List.mem_cons_self e es')))
      (fun e' he' => hall e' (List.mem_cons_of_mem e he'))

/-- Claim C1.  The intended single-flight discipline holds for every trace
in which no run episode is abandoned by a pre-spawn rejection: at most one
job is `running` at any instant, the dispatch step always selects the
first (oldest) `queued` job, and the non-queued jobs always form a prefix
of the queue (so jobs enter `running` in enqueue order).  The first
conjunct exhibits the code bug: when `runJob` rejects before spawning
(environment resolution failure), the rejection is only logged, the stuck
job stays `running` forever, and the dispatcher starts the next job — two
jobs are `running` at once. -/
theorem spec_C1 :
    countRunning (run [.enq "a", .enq "b", .envFail]).queue = 2
    ∧ (∀ es : List MEvent, (∀ e ∈ es, e ≠ .envFail) → countRunning (run es).queue ≤ 1)
    ∧ (∀ (q : List QJob) (i : Nat) (q' : List QJob), startFirstQueued q = some (i, q') →
        ∃ (k : Nat) (jk : QJob), q[k]? = some jk ∧ jk.status = .queued
          ∧ (∀ (m : Nat) (jm : QJob), m < k → q[m]? = some jm → jm.status ≠ .queued)
          ∧ i = jk.id ∧ q'[k]? = some (startJob jk)
          ∧ (∀ m : Nat, m ≠ k → q'[m]? = q[m]?) ∧ q'.length = q.length)
    ∧ (∀ es : List MEvent, (∀ e ∈ es, ∀ id path, e ≠ .save id path) →
        PrefixNQ (run es).queue) := by
  refine ⟨by decide, ?_, sfq_some, ?_⟩
  · intro es hall
    exact (invA_fold es initState invA_init hall).1
  · intro es hall
    exact prefixNQ_fold es initState invB_init prefixNQ_init hall

/-- Witness for C1 on concrete traces and a concrete queue. -/
theorem spec_C1_w :
    countRunning (run [MEvent.enq "a", MEvent.enq "b", MEvent.close (some 0)]).queue ≤ 1
    ∧ PrefixNQ (run [MEvent.enq "a", MEvent.enq "b", MEvent.close (some 0)]).queue
    ∧ (∃ (k : Nat) (jk : QJob), ([newJob 0 "f"] : List QJob)[k]? = some jk
        ∧ jk.status = .queued
        ∧ (∀ (m : Nat) (jm : QJob), m < k → ([newJob 0 "f"] : List QJob)[m]? = some jm →
            jm.status ≠ .queued)
        ∧ 0 = jk.id ∧ ([startJob (newJob 0 "f")] : List QJob)[k]? = some (startJob jk)
        ∧ (∀ m : Nat, m ≠ k → ([startJob (newJob 0 "f")] : List QJob)[m]? =
            ([newJob 0 "f"] : List QJob)[m]?)
        ∧ ([startJob (newJob 0 "f")] : List QJob).length =
            ([newJob 0 "f"] : List QJob).length) :=
  ⟨spec_C1.2.1 [MEvent.enq "a", MEvent.enq "b", MEvent.close (some 0)] (by decide),
   spec_C1.2.2.2 [MEvent.enq "a", MEvent.enq "b", MEvent.close (some 0)]
     (by
       intro e he id path
       fin_cases he <;> intro hc <;> exact MEvent.noConfusion hc),
   spec_C1.2.2.1 [newJob 0 "f"] 0 [startJob (newJob 0 "f")] (by decide)⟩

end BabelDocGui
